import Mathlib

/-!
Shallow embedding of the Go package `bitfield` (file `bitfield.go`).

A `Bitfield` holds a byte buffer `b` (each entry a byte value, modelled as a
`Nat`; the invariant `v < 256` is carried explicitly where needed) together
with the logical bit length `length` (a `uint32`, modelled as a `Nat`; the
places where the Go code performs 32-bit wrap-around arithmetic are modelled
with an explicit `% 2 ^ 32`).

Go panics are modelled with `Except Err`: the panic raised by `checkIndex`
("index out of bound") is `Err.indexOutOfBounds`, the panic raised by
`NewBytes` ("not enough bytes in slice for specified length") is
`Err.invalidLength`, and a Go runtime panic (out-of-range slice access) is
`Err.runtimePanic`.
-/

inductive Err where
  | invalidLength
  | indexOutOfBounds
  | runtimePanic
deriving DecidableEq

instance instDecEqExcept {ε α : Type} [DecidableEq ε] [DecidableEq α] :
    DecidableEq (Except ε α) := fun x y =>
  match x, y with
  | .ok a, .ok b => decidable_of_iff (a = b) (by simp)
  | .error a, .error b => decidable_of_iff (a = b) (by simp)
  | .ok _, .error _ => .isFalse (by simp)
  | .error _, .ok _ => .isFalse (by simp)

structure Bitfield where
  b : List Nat
  length : Nat
deriving DecidableEq

/-- Go: `func divMod32(a, b uint32) (uint32, uint32) { return a / b, a % b }`. -/
def divMod32 (a b : Nat) : Nat × Nat := (a / b, a % b)

/-- Go: `calcSize` returns the number of bytes required to store `length` bits
and the number of valid bits in the last byte. -/
def calcSize (length : Nat) : Nat × Nat :=
  let p := divMod32 length 8
  if p.2 ≠ 0 then (p.1 + 1, p.2) else p

/-- Go: `New(length uint32)` allocates `make([]byte, (length+7)/8)` zero bytes.
The addition `length + 7` is `uint32` addition, hence the `% 2 ^ 32`. -/
def New (length : Nat) : Bitfield :=
  ⟨List.replicate ((length + 7) % 2 ^ 32 / 8) 0, length⟩

/-- Go: `NewBytes(b []byte, length uint32)`.  Panics (`invalidLength`) when
`uint32(len(b)) < nBytes` (note the truncating conversion of the slice length
to `uint32`).  Otherwise, when the last byte is incomplete, it masks
`b[len(b)-1] &= ^(0xff >> nLastBits)` — the last byte of the caller's slice —
and returns the container over `b[:nBytes]` of the mutated slice.  The result
pairs the mutated caller slice with the returned container. -/
def NewBytes (b : List Nat) (length : Nat) : Except Err (List Nat × Bitfield) :=
  let nBytes := (calcSize length).1
  let nLastBits := (calcSize length).2
  if b.length % 2 ^ 32 < nBytes then .error .invalidLength
  else
    let b2 := if nLastBits ≠ 0 then
        b.set (b.length - 1) ((b.getD (b.length - 1) 0) &&& (255 ^^^ (255 >>> nLastBits)))
      else b
    .ok (b2, ⟨b2.take nBytes, length⟩)

/-- Go: `Bytes()` returns the backing byte slice. -/
def Bitfield.Bytes (bf : Bitfield) : List Nat := bf.b

/-- Go: `Len()` returns the number of bits as given to `New`. -/
def Bitfield.Len (bf : Bitfield) : Nat := bf.length

/-- The 16 lowercase hex digits, as in Go's `encoding/hex` table. -/
def hexTable : List Char := "0123456789abcdef".toList

/-- Go: `Hex()` is `hex.EncodeToString(b.b)`: each byte encodes as the digit of
its high nibble followed by the digit of its low nibble. -/
def Bitfield.Hex (bf : Bitfield) : String :=
  String.mk (bf.b.map (fun v => [hexTable.getD (v / 16) '0', hexTable.getD (v % 16) '0'])).flatten

/-- Go: `Test(i)`: after `checkIndex`, reads `b.b[div] & (1 << (7 - mod)) > 0`
with `div, mod = divMod32(i, 8)`.  An out-of-range slice access is a Go
runtime panic (possible only for containers violating invariant I1). -/
def Bitfield.Test (bf : Bitfield) (i : Nat) : Except Err Bool :=
  if bf.length ≤ i then .error .indexOutOfBounds
  else
    match bf.b[(divMod32 i 8).1]? with
    | none => .error .runtimePanic
    | some v => .ok (decide (0 < v &&& (1 <<< (7 - (divMod32 i 8).2))))

/-- Go: `Set(i)`: after `checkIndex`, `b.b[div] |= 1 << (7 - mod)`. -/
def Bitfield.Set (bf : Bitfield) (i : Nat) : Except Err Bitfield :=
  if bf.length ≤ i then .error .indexOutOfBounds
  else
    match bf.b[(divMod32 i 8).1]? with
    | none => .error .runtimePanic
    | some v =>
        .ok ⟨bf.b.set (divMod32 i 8).1 (v ||| (1 <<< (7 - (divMod32 i 8).2))), bf.length⟩

/-- Go: `Clear(i)`: after `checkIndex`, `b.b[div] &= ^(1 << (7 - mod))`; the
complement is taken at type `byte`, i.e. within 8 bits. -/
def Bitfield.Clear (bf : Bitfield) (i : Nat) : Except Err Bitfield :=
  if bf.length ≤ i then .error .indexOutOfBounds
  else
    match bf.b[(divMod32 i 8).1]? with
    | none => .error .runtimePanic
    | some v =>
        .ok ⟨bf.b.set (divMod32 i 8).1 (v &&& (255 ^^^ (1 <<< (7 - (divMod32 i 8).2)))), bf.length⟩

/-- Go: `SetTo(i, value)`: `checkIndex`, then dispatch to `Set`/`Clear`. -/
def Bitfield.SetTo (bf : Bitfield) (i : Nat) (value : Bool) : Except Err Bitfield :=
  if bf.length ≤ i then .error .indexOutOfBounds
  else if value then bf.Set i else bf.Clear i

/-- The loop body shared by `FirstSet`: runs `for i := start; i < b.length; i++`,
returning the first index whose `Test` is `true`.  `fuel` bounds the number of
remaining iterations; callers give `length - start`, which is exact. -/
def Bitfield.firstSetFrom (bf : Bitfield) : Nat → Nat → Except Err (Nat × Bool)
  | _, 0 => .ok (0, false)
  | i, fuel + 1 =>
    if bf.length ≤ i then .ok (0, false)
    else
      match bf.Test i with
      | .error e => .error e
      | .ok true => .ok (i, true)
      | .ok false => bf.firstSetFrom (i + 1) fuel

/-- Go: `FirstSet(start)` scans upward from `start` for the first set bit;
returns `(0, false)` when none exists. -/
def Bitfield.FirstSet (bf : Bitfield) (start : Nat) : Except Err (Nat × Bool) :=
  bf.firstSetFrom start (bf.length - start)

/-- The loop body shared by `FirstClear`, symmetric to `firstSetFrom`. -/
def Bitfield.firstClearFrom (bf : Bitfield) : Nat → Nat → Except Err (Nat × Bool)
  | _, 0 => .ok (0, false)
  | i, fuel + 1 =>
    if bf.length ≤ i then .ok (0, false)
    else
      match bf.Test i with
      | .error e => .error e
      | .ok true => bf.firstClearFrom (i + 1) fuel
      | .ok false => .ok (i, true)

/-- Go: `FirstClear(start)` scans upward from `start` for the first clear bit;
returns `(0, false)` when none exists. -/
def Bitfield.FirstClear (bf : Bitfield) (start : Nat) : Except Err (Nat × Bool) :=
  bf.firstClearFrom start (bf.length - start)

/-- Go: `ClearAll()` sets every byte of the buffer to 0. -/
def Bitfield.ClearAll (bf : Bitfield) : Bitfield :=
  ⟨bf.b.map (fun _ => 0), bf.length⟩

/-- Go: the package-level 256-entry popcount lookup table `countCache`,
transcribed verbatim. -/
def countCacheList : List Nat :=
  [0, 1, 1, 2, 1, 2, 2, 3, 1, 2, 2, 3, 2, 3, 3, 4,
   1, 2, 2, 3, 2, 3, 3, 4, 2, 3, 3, 4, 3, 4, 4, 5,
   1, 2, 2, 3, 2, 3, 3, 4, 2, 3, 3, 4, 3, 4, 4, 5,
   2, 3, 3, 4, 3, 4, 4, 5, 3, 4, 4, 5, 4, 5, 5, 6,
   1, 2, 2, 3, 2, 3, 3, 4, 2, 3, 3, 4, 3, 4, 4, 5,
   2, 3, 3, 4, 3, 4, 4, 5, 3, 4, 4, 5, 4, 5, 5, 6,
   2, 3, 3, 4, 3, 4, 4, 5, 3, 4, 4, 5, 4, 5, 5, 6,
   3, 4, 4, 5, 4, 5, 5, 6, 4, 5, 5, 6, 5, 6, 6, 7,
   1, 2, 2, 3, 2, 3, 3, 4, 2, 3, 3, 4, 3, 4, 4, 5,
   2, 3, 3, 4, 3, 4, 4, 5, 3, 4, 4, 5, 4, 5, 5, 6,
   2, 3, 3, 4, 3, 4, 4, 5, 3, 4, 4, 5, 4, 5, 5, 6,
   3, 4, 4, 5, 4, 5, 5, 6, 4, 5, 5, 6, 5, 6, 6, 7,
   2, 3, 3, 4, 3, 4, 4, 5, 3, 4, 4, 5, 4, 5, 5, 6,
   3, 4, 4, 5, 4, 5, 5, 6, 4, 5, 5, 6, 5, 6, 6, 7,
   3, 4, 4, 5, 4, 5, 5, 6, 4, 5, 5, 6, 5, 6, 6, 7,
   4, 5, 5, 6, 5, 6, 6, 7, 5, 6, 6, 7, 6, 7, 7, 8]

/-- Go: `Count()` sums `countCache[v]` over the buffer bytes into a `uint32`
accumulator (hence the final `% 2 ^ 32`, equivalent to wrapping at each add). -/
def Bitfield.Count (bf : Bitfield) : Nat :=
  (bf.b.map (fun v => countCacheList.getD v 0)).sum % 2 ^ 32

/-- Go: `All()` returns `b.Count() == b.length`. -/
def Bitfield.All (bf : Bitfield) : Bool :=
  bf.Count == bf.length

/-- One mutation call, for stating properties about call sequences. -/
inductive Op where
  | set (i : Nat)
  | clear (i : Nat)
  | setTo (i : Nat) (v : Bool)
deriving DecidableEq

/-- The index a mutation call addresses. -/
def Op.idx : Op → Nat
  | .set i => i
  | .clear i => i
  | .setTo i _ => i

/-- Run one mutation call on a container. -/
def applyOp (bf : Bitfield) : Op → Except Err Bitfield
  | .set i => bf.Set i
  | .clear i => bf.Clear i
  | .setTo i v => bf.SetTo i v

/-- Run a sequence of mutation calls left to right, aborting at a panic. -/
def applyOps (bf : Bitfield) : List Op → Except Err Bitfield
  | [] => .ok bf
  | op :: rest =>
    match applyOp bf op with
    | .ok bf2 => applyOps bf2 rest
    | .error e => .error e

/-- Bit `i` of a byte buffer under the code's MSB-first convention: bit `i`
lives in byte `i / 8` at bit position `7 - i % 8` (from the least significant
end).  Out-of-range bytes read as 0. -/
def bitAt (b : List Nat) (i : Nat) : Bool :=
  (b.getD (i / 8) 0).testBit (7 - i % 8)

/-- The number of indices `i < bf.length` for which `Test i` returns `true` —
the right-hand side of the count-consistency claim. -/
def countTrue (bf : Bitfield) : Nat :=
  (List.range bf.length).countP (fun i =>
    match bf.Test i with
    | .ok true => true
    | _ => false)

/-- Containers whose logical length fits the buffer, as implied by the spec's
invariant I1 (`buffer.length = ceil(bitLength/8)`). -/
def WF (bf : Bitfield) : Prop := bf.length ≤ 8 * bf.b.length

/-! ### Bit-level helper lemmas -/

lemma decide_and_two_pow (v k : Nat) : decide (0 < v &&& (1 <<< k)) = v.testBit k := by
  rw [Nat.one_shiftLeft, Nat.and_two_pow]
  cases h : v.testBit k <;> simp [Nat.two_pow_pos]

lemma testBit_or_word_self (v m : Nat) : (v ||| (1 <<< m)).testBit m = true := by
  rw [Nat.one_shiftLeft, Nat.testBit_lor, Nat.testBit_two_pow_self, Bool.or_true]

lemma testBit_or_word (v m k : Nat) (hk : k ≠ m) :
    (v ||| (1 <<< m)).testBit k = v.testBit k := by
  rw [Nat.one_shiftLeft, Nat.testBit_lor, Nat.testBit_two_pow_of_ne (Ne.symm hk), Bool.or_false]

lemma testBit_and_not_word_self (v m : Nat) (hm : m < 8) :
    (v &&& (255 ^^^ (1 <<< m))).testBit m = false := by
  rw [Nat.one_shiftLeft, Nat.testBit_land, Nat.testBit_xor,
    show (255 : Nat) = 2 ^ 8 - 1 from rfl, Nat.testBit_two_pow_sub_one,
    Nat.testBit_two_pow_self]
  simp [hm]

lemma testBit_and_not_word (v m k : Nat) (hk8 : k < 8) (hk : k ≠ m) :
    (v &&& (255 ^^^ (1 <<< m))).testBit k = v.testBit k := by
  rw [Nat.one_shiftLeft, Nat.testBit_land, Nat.testBit_xor,
    show (255 : Nat) = 2 ^ 8 - 1 from rfl, Nat.testBit_two_pow_sub_one,
    Nat.testBit_two_pow_of_ne (Ne.symm hk)]
  simp [hk8]

/-! ### Characterizing the operations on in-range indices -/

lemma getElem?_eq_some_getD {b : List Nat} {j : Nat} (h : j < b.length) :
    b[j]? = some (b.getD j 0) := by
  rw [List.getD_eq_getElem?_getD, List.getElem?_eq_getElem h]
  rfl

lemma getD_eq_getElem {b : List Nat} {j : Nat} (h : j < b.length) : b.getD j 0 = b[j] := by
  rw [List.getD_eq_getElem?_getD, List.getElem?_eq_getElem h]
  rfl

lemma Test_ok {bf : Bitfield} {i : Nat} (hi : i < bf.length) (hb : i / 8 < bf.b.length) :
    bf.Test i = .ok (bitAt bf.b i) := by
  unfold Bitfield.Test
  rw [if_neg (by omega)]
  show (match bf.b[i / 8]? with
    | none => Except.error Err.runtimePanic
    | some v => Except.ok (decide (0 < v &&& (1 <<< (7 - i % 8))))) = _
  rw [getElem?_eq_some_getD hb]
  rw [bitAt, ← decide_and_two_pow]

lemma Set_ok {bf : Bitfield} {i : Nat} (hi : i < bf.length) (hb : i / 8 < bf.b.length) :
    bf.Set i =
      .ok ⟨bf.b.set (i / 8) ((bf.b.getD (i / 8) 0) ||| (1 <<< (7 - i % 8))), bf.length⟩ := by
  unfold Bitfield.Set
  rw [if_neg (by omega)]
  show (match bf.b[i / 8]? with
    | none => Except.error Err.runtimePanic
    | some v => Except.ok (Bitfield.mk (bf.b.set (i / 8) (v ||| (1 <<< (7 - i % 8)))) bf.length)) = _
  rw [getElem?_eq_some_getD hb]

lemma Clear_ok {bf : Bitfield} {i : Nat} (hi : i < bf.length) (hb : i / 8 < bf.b.length) :
    bf.Clear i =
      .ok ⟨bf.b.set (i / 8) ((bf.b.getD (i / 8) 0) &&& (255 ^^^ (1 <<< (7 - i % 8)))),
        bf.length⟩ := by
  unfold Bitfield.Clear
  rw [if_neg (by omega)]
  show (match bf.b[i / 8]? with
    | none => Except.error Err.runtimePanic
    | some v => Except.ok (Bitfield.mk (bf.b.set (i / 8) (v &&& (255 ^^^ (1 <<< (7 - i % 8))))) bf.length)) = _
  rw [getElem?_eq_some_getD hb]

/-! ### How a single-byte update moves `bitAt` -/

lemma bitAt_set_self (b : List Nat) (i w : Nat) (hlt : i / 8 < b.length) :
    bitAt (b.set (i / 8) w) i = w.testBit (7 - i % 8) := by
  unfold bitAt
  rw [List.getD_eq_getElem?_getD, List.getElem?_set_self (by simpa using hlt)]
  rfl

lemma bitAt_set_of_ne (b : List Nat) (i j w : Nat) (hij : j ≠ i)
    (hw : ∀ k, k < 8 → k ≠ 7 - i % 8 → w.testBit k = (b.getD (i / 8) 0).testBit k) :
    bitAt (b.set (i / 8) w) j = bitAt b j := by
  unfold bitAt
  by_cases hbyte : j / 8 = i / 8
  · by_cases hlen : i / 8 < b.length
    · have hget : (b.set (i / 8) w).getD (j / 8) 0 = w := by
        rw [hbyte, List.getD_eq_getElem?_getD, List.getElem?_set_self (by simpa using hlen)]
        rfl
      have hmod : j % 8 ≠ i % 8 := by omega
      rw [hget, hbyte, hw (7 - j % 8) (by omega) (by omega)]
    · rw [List.set_eq_of_length_le (by omega)]
  · have hget : (b.set (i / 8) w).getD (j / 8) 0 = b.getD (j / 8) 0 := by
      rw [List.getD_eq_getElem?_getD, List.getElem?_set_ne (by omega),
        ← List.getD_eq_getElem?_getD]
    rw [hget]

/-! ### Counting machinery -/

/-- Mathematical popcount of a byte under the code's MSB-first view: the number
of bit positions `7 - k`, `k < 8`, that are set. -/
def byteCount (v : Nat) : Nat :=
  (List.range 8).countP (fun k => v.testBit (7 - k))

set_option maxRecDepth 4000 in
lemma countCacheList_eq_byteCount : ∀ v, v < 256 → countCacheList.getD v 0 = byteCount v := by
  decide

lemma countP_range_ext (p : Nat → Bool) (n m : Nat) (hnm : n ≤ m)
    (h : ∀ i, n ≤ i → i < m → p i = false) :
    (List.range m).countP p = (List.range n).countP p := by
  have hm : m = n + (m - n) := by omega
  rw [hm, List.range_add, List.countP_append]
  have : ((List.range (m - n)).map (n + ·)).countP p = 0 := by
    rw [List.countP_eq_zero]
    intro a ha
    rcases List.mem_map.mp ha with ⟨k, hk, rfl⟩
    have hk' : k < m - n := List.mem_range.mp hk
    simp [h (n + k) (by omega) (by omega)]
  omega

lemma bitAt_cons_lt (v : Nat) (t : List Nat) (k : Nat) (hk : k < 8) :
    bitAt (v :: t) k = v.testBit (7 - k) := by
  unfold bitAt
  have h1 : k / 8 = 0 := by omega
  have h2 : k % 8 = k := by omega
  rw [h1, h2]
  rfl

lemma bitAt_cons_ge (v : Nat) (t : List Nat) (k : Nat) :
    bitAt (v :: t) (8 + k) = bitAt t k := by
  unfold bitAt
  have h1 : (8 + k) / 8 = k / 8 + 1 := by omega
  have h2 : (8 + k) % 8 = k % 8 := by omega
  rw [h1, h2]
  rfl

lemma sum_byteCount (b : List Nat) :
    (b.map byteCount).sum = (List.range (8 * b.length)).countP (bitAt b) := by
  induction b with
  | nil => rfl
  | cons v t ih =>
    have hlen : 8 * (v :: t).length = 8 + 8 * t.length := by
      simp [List.length_cons]; omega
    rw [hlen, List.range_add, List.countP_append, List.map_cons, List.sum_cons, ih]
    have h1 : (List.range 8).countP (bitAt (v :: t)) = byteCount v := by
      apply List.countP_congr
      intro k hk
      rw [bitAt_cons_lt v t k (List.mem_range.mp hk)]
    have h2 : ((List.range (8 * t.length)).map (8 + ·)).countP (bitAt (v :: t)) =
        (List.range (8 * t.length)).countP (bitAt t) := by
      rw [List.countP_map]
      apply List.countP_congr
      intro k _
      show bitAt (v :: t) (8 + k) = true ↔ bitAt t k = true
      rw [bitAt_cons_ge v t k]
    rw [h1, h2]

/-- The central counting identity: for a container whose bytes are in range and
whose bits at positions `≥ length` (inside the buffer) are all clear, `Count`
agrees with the number of indices whose `Test` is `true`. -/
lemma Count_eq_countTrue {bf : Bitfield} (hby : ∀ v ∈ bf.b, v < 256)
    (hsize : 8 * bf.b.length < 2 ^ 32)
    (hpad : ∀ i, bf.length ≤ i → i < 8 * bf.b.length → bitAt bf.b i = false) :
    bf.Count = countTrue bf := by
  have hmap : bf.b.map (fun v => countCacheList.getD v 0) = bf.b.map byteCount :=
    List.map_congr_left (fun v hv => countCacheList_eq_byteCount v (hby v hv))
  have hsum : (bf.b.map byteCount).sum = (List.range (8 * bf.b.length)).countP (bitAt bf.b) :=
    sum_byteCount bf.b
  have hbound : (List.range (8 * bf.b.length)).countP (bitAt bf.b) < 2 ^ 32 := by
    have := List.countP_le_length (p := bitAt bf.b) (l := List.range (8 * bf.b.length))
    rw [List.length_range] at this
    omega
  rw [Bitfield.Count, hmap, hsum, Nat.mod_eq_of_lt hbound, countTrue]
  set N := min bf.length (8 * bf.b.length) with hN
  have hleft : (List.range (8 * bf.b.length)).countP (bitAt bf.b) =
      (List.range N).countP (bitAt bf.b) := by
    apply countP_range_ext _ _ _ (by omega)
    intro i hNi hi
    exact hpad i (by omega) hi
  have hright : (List.range bf.length).countP (fun i =>
      match bf.Test i with
      | .ok true => true
      | _ => false) = (List.range N).countP (fun i =>
      match bf.Test i with
      | .ok true => true
      | _ => false) := by
    apply countP_range_ext _ _ _ (by omega)
    intro i hNi hi
    have hdiv : bf.b.length ≤ i / 8 := by omega
    have : bf.b[(divMod32 i 8).1]? = none := by
      apply List.getElem?_eq_none
      simpa [divMod32] using hdiv
    unfold Bitfield.Test
    rw [if_neg (by omega), this]
  rw [hleft, hright]
  apply List.countP_congr
  intro i hi
  have hiN : i < N := List.mem_range.mp hi
  rw [Test_ok (by omega) (by omega)]
  cases bitAt bf.b i <;> rfl

/-! ### The reachable-state invariant -/

/-- States reachable from `New L`: the length field is `L`, every buffer entry
is a byte, the buffer is small enough that `Count`'s `uint32` accumulator
cannot wrap, and every buffer bit at a position `≥ L` is clear. -/
def GoodFor (L : Nat) (bf : Bitfield) : Prop :=
  bf.length = L ∧ (∀ v ∈ bf.b, v < 256) ∧ 8 * bf.b.length < 2 ^ 32 ∧
    ∀ i, L ≤ i → i < 8 * bf.b.length → bitAt bf.b i = false

lemma getD_replicate_zero (n j : Nat) : (List.replicate n (0 : Nat)).getD j 0 = 0 := by
  induction n generalizing j with
  | zero => rfl
  | succ m ih =>
    cases j with
    | zero => rfl
    | succ jj =>
      rw [List.replicate_succ, List.getD_cons_succ]
      exact ih jj

lemma GoodFor_New (L : Nat) : GoodFor L (New L) := by
  refine ⟨rfl, ?_, ?_, ?_⟩
  · intro v hv
    rw [List.eq_of_mem_replicate hv]
    omega
  · have h1 : (L + 7) % 2 ^ 32 < 2 ^ 32 := Nat.mod_lt _ (by norm_num)
    simp only [New, List.length_replicate]
    omega
  · intro i _ _
    show bitAt (List.replicate ((L + 7) % 2 ^ 32 / 8) 0) i = false
    unfold bitAt
    rw [getD_replicate_zero]
    exact Nat.zero_testBit _

lemma Set_preserves_GoodFor {L : Nat} {bf bf2 : Bitfield} (hg : GoodFor L bf) {i : Nat}
    (h : bf.Set i = .ok bf2) : GoodFor L bf2 := by
  obtain ⟨hlen, hby, hsize, hpad⟩ := hg
  by_cases hi : bf.length ≤ i
  · rw [Bitfield.Set, if_pos hi] at h
    cases h
  · cases hv : bf.b[(divMod32 i 8).1]? with
    | none =>
      rw [Bitfield.Set, if_neg hi, hv] at h
      cases h
    | some v =>
      have hlt : i / 8 < bf.b.length := by
        have := (List.getElem?_eq_some_iff.mp hv).1
        simpa [divMod32] using this
      rw [Set_ok (by omega) hlt] at h
      cases h
      refine ⟨hlen, ?_, by simpa using hsize, ?_⟩
      · intro u hu
        rcases List.mem_or_eq_of_mem_set hu with hmem | rfl
        · exact hby u hmem
        · apply Nat.or_lt_two_pow (n := 8)
          · rw [getD_eq_getElem hlt]
            exact hby _ (List.getElem_mem hlt)
          · rw [Nat.one_shiftLeft]
            calc 2 ^ (7 - i % 8) ≤ 2 ^ 7 := Nat.pow_le_pow_right (by norm_num) (by omega)
            _ < 2 ^ 8 := by norm_num
      · intro j hj hjlt
        rw [List.length_set] at hjlt
        have hji : j ≠ i := by omega
        rw [bitAt_set_of_ne bf.b i j _ hji (fun k _ hk => testBit_or_word _ _ _ hk)]
        exact hpad j hj hjlt

lemma Clear_preserves_GoodFor {L : Nat} {bf bf2 : Bitfield} (hg : GoodFor L bf) {i : Nat}
    (h : bf.Clear i = .ok bf2) : GoodFor L bf2 := by
  obtain ⟨hlen, hby, hsize, hpad⟩ := hg
  by_cases hi : bf.length ≤ i
  · rw [Bitfield.Clear, if_pos hi] at h
    cases h
  · cases hv : bf.b[(divMod32 i 8).1]? with
    | none =>
      rw [Bitfield.Clear, if_neg hi, hv] at h
      cases h
    | some v =>
      have hlt : i / 8 < bf.b.length := by
        have := (List.getElem?_eq_some_iff.mp hv).1
        simpa [divMod32] using this
      rw [Clear_ok (by omega) hlt] at h
      cases h
      refine ⟨hlen, ?_, by simpa using hsize, ?_⟩
      · intro u hu
        rcases List.mem_or_eq_of_mem_set hu with hmem | rfl
        · exact hby u hmem
        · have hmask : (255 ^^^ 1 <<< (7 - i % 8)) < 2 ^ 8 := by
            apply Nat.xor_lt_two_pow (by norm_num)
            rw [Nat.one_shiftLeft]
            calc 2 ^ (7 - i % 8) ≤ 2 ^ 7 := Nat.pow_le_pow_right (by norm_num) (by omega)
            _ < 2 ^ 8 := by norm_num
          exact Nat.and_lt_two_pow _ hmask
      · intro j hj hjlt
        rw [List.length_set] at hjlt
        have hji : j ≠ i := by omega
        rw [bitAt_set_of_ne bf.b i j _ hji
          (fun k hk8 hk => testBit_and_not_word _ _ _ hk8 hk)]
        exact hpad j hj hjlt

lemma applyOp_preserves_GoodFor {L : Nat} {bf bf2 : Bitfield} (hg : GoodFor L bf) {op : Op}
    (h : applyOp bf op = .ok bf2) : GoodFor L bf2 := by
  cases op with
  | set i => exact Set_preserves_GoodFor hg h
  | clear i => exact Clear_preserves_GoodFor hg h
  | setTo i v =>
    have h2 : (if bf.length ≤ i then (Except.error Err.indexOutOfBounds : Except Err Bitfield)
        else if v then bf.Set i else bf.Clear i) = .ok bf2 := h
    by_cases hi : bf.length ≤ i
    · rw [if_pos hi] at h2
      cases h2
    · rw [if_neg hi] at h2
      cases v with
      | true => exact Set_preserves_GoodFor hg (by simpa using h2)
      | false => exact Clear_preserves_GoodFor hg (by simpa using h2)

lemma applyOps_preserves_GoodFor {L : Nat} (ops : List Op) :
    ∀ {bf bf2 : Bitfield}, GoodFor L bf → applyOps bf ops = .ok bf2 → GoodFor L bf2 := by
  induction ops with
  | nil =>
    intro bf bf2 hg h
    simp only [applyOps] at h
    cases h
    exact hg
  | cons op rest ih =>
    intro bf bf2 hg h
    simp only [applyOps] at h
    cases hop : applyOp bf op with
    | error e =>
      rw [hop] at h
      cases h
    | ok bfm =>
      rw [hop] at h
      exact ih (applyOp_preserves_GoodFor hg hop) h

/-! ### Claim C3 -/

/-- Claim C3: for every container built by `New L` followed by any finite
sequence of `Set`/`Clear`/`SetTo` calls on valid indices, `Count` equals the
number of indices `i < L` for which `Test i` returns `true`. -/
theorem C3_count_consistency (L : Nat) (ops : List Op)
    (_hvalid : ∀ op ∈ ops, op.idx < L) {bf : Bitfield}
    (h : applyOps (New L) ops = .ok bf) : bf.Count = countTrue bf := by
  obtain ⟨hlen, hby, hsize, hpad⟩ := applyOps_preserves_GoodFor ops (GoodFor_New L) h
  exact Count_eq_countTrue hby hsize (by rw [hlen]; exact hpad)

/-- Witness for C3 at `L = 20` with the call sequence
`Set 0; Set 7; Clear 0; SetTo 3 true`. -/
theorem C3_count_consistency_witness :
    (∀ op ∈ ([Op.set 0, Op.set 7, Op.clear 0, Op.setTo 3 true] : List Op), op.idx < 20) ∧
      applyOps (New 20) [Op.set 0, Op.set 7, Op.clear 0, Op.setTo 3 true] =
        .ok ⟨[17, 0, 0], 20⟩ ∧
      Bitfield.Count ⟨[17, 0, 0], 20⟩ = countTrue ⟨[17, 0, 0], 20⟩ :=
  ⟨by decide, rfl,
    C3_count_consistency 20 [Op.set 0, Op.set 7, Op.clear 0, Op.setTo 3 true]
      (by decide) rfl⟩

/-! ### Claim C6 -/

/-- Claim C6: every bit-addressed operation fails with the `IndexOutOfBounds`
condition exactly when `i ≥ Len()`; a failing call returns no container, so
the container is unchanged. -/
theorem C6_bounds_enforcement (bf : Bitfield) (i : Nat) (v : Bool) :
    (bf.Test i = .error .indexOutOfBounds ↔ bf.Len ≤ i) ∧
    (bf.Set i = .error .indexOutOfBounds ↔ bf.Len ≤ i) ∧
    (bf.Clear i = .error .indexOutOfBounds ↔ bf.Len ≤ i) ∧
    (bf.SetTo i v = .error .indexOutOfBounds ↔ bf.Len ≤ i) := by
  have hTest : bf.Test i = .error .indexOutOfBounds ↔ bf.length ≤ i := by
    by_cases hi : bf.length ≤ i
    · simp [Bitfield.Test, hi]
    · simp only [Bitfield.Test, if_neg hi]
      cases hv : bf.b[(divMod32 i 8).1]? <;> simp [hi]
  have hSet : bf.Set i = .error .indexOutOfBounds ↔ bf.length ≤ i := by
    by_cases hi : bf.length ≤ i
    · simp [Bitfield.Set, hi]
    · simp only [Bitfield.Set, if_neg hi]
      cases hv : bf.b[(divMod32 i 8).1]? <;> simp [hi]
  have hClear : bf.Clear i = .error .indexOutOfBounds ↔ bf.length ≤ i := by
    by_cases hi : bf.length ≤ i
    · simp [Bitfield.Clear, hi]
    · simp only [Bitfield.Clear, if_neg hi]
      cases hv : bf.b[(divMod32 i 8).1]? <;> simp [hi]
  have hSetTo : bf.SetTo i v = .error .indexOutOfBounds ↔ bf.length ≤ i := by
    by_cases hi : bf.length ≤ i
    · simp [Bitfield.SetTo, hi]
    · simp only [Bitfield.SetTo, if_neg hi]
      cases v
      · simpa using hClear
      · simpa using hSet
  exact ⟨hTest, hSet, hClear, hSetTo⟩

/-! ### Claim C10 -/

lemma Test_set_word {bf : Bitfield} {i j v w : Nat} (hij : j ≠ i)
    (hv : bf.b[(divMod32 i 8).1]? = some v)
    (hw : ∀ k, k < 8 → k ≠ 7 - i % 8 → w.testBit k = v.testBit k) :
    Bitfield.Test ⟨bf.b.set ((divMod32 i 8).1) w, bf.length⟩ j = bf.Test j := by
  have hlt : i / 8 < bf.b.length := by
    have := (List.getElem?_eq_some_iff.mp hv).1
    simpa [divMod32] using this
  by_cases hj : bf.length ≤ j
  · simp [Bitfield.Test, hj]
  · simp only [Bitfield.Test, if_neg hj]
    by_cases hbyte : j / 8 = i / 8
    · have hmod : j % 8 ≠ i % 8 := by omega
      have h1 : (bf.b.set ((divMod32 i 8).1) w)[(divMod32 j 8).1]? = some w := by
        show (bf.b.set (i / 8) w)[j / 8]? = some w
        rw [hbyte, List.getElem?_set_self (by simpa using hlt)]
      have h2 : bf.b[(divMod32 j 8).1]? = some v := by
        show bf.b[j / 8]? = some v
        rw [hbyte]
        exact hv
      rw [h1, h2]
      show Except.ok (decide (0 < w &&& (1 <<< (7 - j % 8)))) =
        Except.ok (decide (0 < v &&& (1 <<< (7 - j % 8))))
      rw [decide_and_two_pow, decide_and_two_pow, hw (7 - j % 8) (by omega) (by omega)]
    · have h1 : (bf.b.set ((divMod32 i 8).1) w)[(divMod32 j 8).1]? =
          bf.b[(divMod32 j 8).1]? := by
        show (bf.b.set (i / 8) w)[j / 8]? = bf.b[j / 8]?
        exact List.getElem?_set_ne (by omega)
      rw [h1]

/-- Claim C10: on a valid index `i`, `Set i` and `Clear i` change no other
bit — `Test j` is unchanged for every valid `j ≠ i` — and leave `Len` and the
buffer's byte count unchanged. -/
theorem C10_set_clear_frame (bf bfS bfC : Bitfield) (i : Nat) (hi : i < bf.Len)
    (hset : bf.Set i = .ok bfS) (hclr : bf.Clear i = .ok bfC) :
    (∀ j, j < bf.Len → j ≠ i → bfS.Test j = bf.Test j) ∧
      bfS.Len = bf.Len ∧ bfS.b.length = bf.b.length ∧
    (∀ j, j < bf.Len → j ≠ i → bfC.Test j = bf.Test j) ∧
      bfC.Len = bf.Len ∧ bfC.b.length = bf.b.length := by
  rw [Bitfield.Set, if_neg (by exact not_le.mpr hi)] at hset
  rw [Bitfield.Clear, if_neg (by exact not_le.mpr hi)] at hclr
  cases hv : bf.b[(divMod32 i 8).1]? with
  | none =>
    rw [hv] at hset
    cases hset
  | some v =>
    rw [hv] at hset hclr
    cases hset
    cases hclr
    refine ⟨?_, rfl, by simp, ?_, rfl, by simp⟩
    · intro j _ hji
      exact Test_set_word hji hv (fun k _ hk => testBit_or_word v (7 - i % 8) k hk)
    · intro j _ hji
      exact Test_set_word hji hv
        (fun k hk8 hk => testBit_and_not_word v (7 - i % 8) k hk8 hk)

/-- Witness for C10: the container `⟨[129], 8⟩` with `i = 2`. -/
theorem C10_set_clear_frame_witness :
    2 < Bitfield.Len ⟨[129], 8⟩ ∧
      Bitfield.Set ⟨[129], 8⟩ 2 = .ok ⟨[161], 8⟩ ∧
      Bitfield.Clear ⟨[129], 8⟩ 2 = .ok ⟨[129], 8⟩ ∧
      ((∀ j, j < Bitfield.Len ⟨[129], 8⟩ → j ≠ 2 →
          Bitfield.Test ⟨[161], 8⟩ j = Bitfield.Test ⟨[129], 8⟩ j) ∧
        Bitfield.Len ⟨[161], 8⟩ = Bitfield.Len ⟨[129], 8⟩ ∧
        ([161] : List Nat).length = ([129] : List Nat).length ∧
        (∀ j, j < Bitfield.Len ⟨[129], 8⟩ → j ≠ 2 →
          Bitfield.Test ⟨[129], 8⟩ j = Bitfield.Test ⟨[129], 8⟩ j) ∧
        Bitfield.Len ⟨[129], 8⟩ = Bitfield.Len ⟨[129], 8⟩ ∧
        ([129] : List Nat).length = ([129] : List Nat).length) :=
  ⟨by norm_num [Bitfield.Len], rfl, rfl,
    C10_set_clear_frame ⟨[129], 8⟩ ⟨[161], 8⟩ ⟨[129], 8⟩ 2 (by decide)
      rfl rfl⟩

/-! ### Claim C5 -/

lemma firstSetFrom_spec {bf : Bitfield} (hwf : WF bf) :
    ∀ (fuel i : Nat), bf.length ≤ i + fuel →
      match bf.firstSetFrom i fuel with
      | .ok (r, true) => i ≤ r ∧ r < bf.length ∧ bf.Test r = .ok true ∧
          ∀ j, j < r → i ≤ j → bf.Test j = .ok false
      | .ok (r, false) => r = 0 ∧ ∀ j, j < bf.length → i ≤ j → bf.Test j = .ok false
      | .error _ => False := by
  intro fuel
  induction fuel with
  | zero =>
    intro i hfi
    exact ⟨rfl, fun j hj hij => absurd hj (by omega)⟩
  | succ n ih =>
    intro i hfi
    by_cases hi : bf.length ≤ i
    · have hstep : bf.firstSetFrom i (n + 1) = .ok (0, false) := by
        simp only [Bitfield.firstSetFrom, if_pos hi]
      rw [hstep]
      exact ⟨rfl, fun j hj hij => absurd hj (by omega)⟩
    · have hTest : bf.Test i = .ok (bitAt bf.b i) := by
        refine Test_ok (by omega) ?_
        unfold WF at hwf
        omega
      have hstep : bf.firstSetFrom i (n + 1) =
          (match bf.Test i with
            | .error e => .error e
            | .ok true => .ok (i, true)
            | .ok false => bf.firstSetFrom (i + 1) n) := by
        simp only [Bitfield.firstSetFrom, if_neg hi]
      cases hb : bitAt bf.b i with
      | true =>
        rw [hb] at hTest
        rw [hstep, hTest]
        exact ⟨Nat.le_refl i, by omega, hTest, fun j hj hij => absurd hj (by omega)⟩
      | false =>
        rw [hb] at hTest
        rw [hstep, hTest]
        have hrec := ih (i + 1) (by omega)
        cases hr : bf.firstSetFrom (i + 1) n with
        | error e =>
          rw [hr] at hrec
          exact hrec
        | ok p =>
          rw [hr] at hrec
          obtain ⟨r, found⟩ := p
          cases found with
          | false =>
            obtain ⟨hr0, hall⟩ := hrec
            refine ⟨hr0, fun j hj hij => ?_⟩
            rcases Nat.eq_or_lt_of_le hij with rfl | hlt
            · exact hTest
            · exact hall j hj (by omega)
          | true =>
            obtain ⟨hir, hrlen, hrt, hmin⟩ := hrec
            refine ⟨by omega, hrlen, hrt, fun j hj hij => ?_⟩
            rcases Nat.eq_or_lt_of_le hij with rfl | hlt
            · exact hTest
            · exact hmin j hj (by omega)

lemma firstClearFrom_spec {bf : Bitfield} (hwf : WF bf) :
    ∀ (fuel i : Nat), bf.length ≤ i + fuel →
      match bf.firstClearFrom i fuel with
      | .ok (r, true) => i ≤ r ∧ r < bf.length ∧ bf.Test r = .ok false ∧
          ∀ j, j < r → i ≤ j → bf.Test j = .ok true
      | .ok (r, false) => r = 0 ∧ ∀ j, j < bf.length → i ≤ j → bf.Test j = .ok true
      | .error _ => False := by
  intro fuel
  induction fuel with
  | zero =>
    intro i hfi
    exact ⟨rfl, fun j hj hij => absurd hj (by omega)⟩
  | succ n ih =>
    intro i hfi
    by_cases hi : bf.length ≤ i
    · have hstep : bf.firstClearFrom i (n + 1) = .ok (0, false) := by
        simp only [Bitfield.firstClearFrom, if_pos hi]
      rw [hstep]
      exact ⟨rfl, fun j hj hij => absurd hj (by omega)⟩
    · have hTest : bf.Test i = .ok (bitAt bf.b i) := by
        refine Test_ok (by omega) ?_
        unfold WF at hwf
        omega
      have hstep : bf.firstClearFrom i (n + 1) =
          (match bf.Test i with
            | .error e => .error e
            | .ok true => bf.firstClearFrom (i + 1) n
            | .ok false => .ok (i, true)) := by
        simp only [Bitfield.firstClearFrom, if_neg hi]
      cases hb : bitAt bf.b i with
      | false =>
        rw [hb] at hTest
        rw [hstep, hTest]
        exact ⟨Nat.le_refl i, by omega, hTest, fun j hj hij => absurd hj (by omega)⟩
      | true =>
        rw [hb] at hTest
        rw [hstep, hTest]
        have hrec := ih (i + 1) (by omega)
        cases hr : bf.firstClearFrom (i + 1) n with
        | error e =>
          rw [hr] at hrec
          exact hrec
        | ok p =>
          rw [hr] at hrec
          obtain ⟨r, found⟩ := p
          cases found with
          | false =>
            obtain ⟨hr0, hall⟩ := hrec
            refine ⟨hr0, fun j hj hij => ?_⟩
            rcases Nat.eq_or_lt_of_le hij with rfl | hlt
            · exact hTest
            · exact hall j hj (by omega)
          | true =>
            obtain ⟨hir, hrlen, hrt, hmin⟩ := hrec
            refine ⟨by omega, hrlen, hrt, fun j hj hij => ?_⟩
            rcases Nat.eq_or_lt_of_le hij with rfl | hlt
            · exact hTest
            · exact hmin j hj (by omega)

/-- Claim C5: `FirstSet start` returns `(r, true)` exactly for the smallest
index `r ≥ start` (within bounds) whose bit is set, and `(0, false)` when no
such index exists; `FirstClear` is symmetric; and for `start ≥ Len()` both
return not-found. -/
theorem C5_scan_correctness (bf : Bitfield) (hwf : WF bf) (start : Nat) :
    (match bf.FirstSet start with
      | .ok (r, true) => start ≤ r ∧ r < bf.Len ∧ bf.Test r = .ok true ∧
          ∀ j, j < r → start ≤ j → bf.Test j = .ok false
      | .ok (r, false) => r = 0 ∧ ∀ j, j < bf.Len → start ≤ j → bf.Test j = .ok false
      | .error _ => False) ∧
    (match bf.FirstClear start with
      | .ok (r, true) => start ≤ r ∧ r < bf.Len ∧ bf.Test r = .ok false ∧
          ∀ j, j < r → start ≤ j → bf.Test j = .ok true
      | .ok (r, false) => r = 0 ∧ ∀ j, j < bf.Len → start ≤ j → bf.Test j = .ok true
      | .error _ => False) ∧
    (bf.Len ≤ start →
      bf.FirstSet start = .ok (0, false) ∧ bf.FirstClear start = .ok (0, false)) := by
  refine ⟨firstSetFrom_spec hwf (bf.length - start) start (by omega),
    firstClearFrom_spec hwf (bf.length - start) start (by omega), ?_⟩
  intro hstart
  have hstart2 : bf.length ≤ start := hstart
  have h0 : bf.length - start = 0 := by omega
  constructor
  · show bf.firstSetFrom start (bf.length - start) = .ok (0, false)
    rw [h0]
    rfl
  · show bf.firstClearFrom start (bf.length - start) = .ok (0, false)
    rw [h0]
    rfl

/-- Witness for C5 on the container `⟨[160], 3⟩` (bits 1 0 1) at `start = 1`. -/
theorem C5_scan_correctness_witness :
    WF ⟨[160], 3⟩ ∧
    ((match Bitfield.FirstSet ⟨[160], 3⟩ 1 with
      | .ok (r, true) => 1 ≤ r ∧ r < Bitfield.Len ⟨[160], 3⟩ ∧
          Bitfield.Test ⟨[160], 3⟩ r = .ok true ∧
          ∀ j, j < r → 1 ≤ j → Bitfield.Test ⟨[160], 3⟩ j = .ok false
      | .ok (r, false) => r = 0 ∧ ∀ j, j < Bitfield.Len ⟨[160], 3⟩ → 1 ≤ j →
          Bitfield.Test ⟨[160], 3⟩ j = .ok false
      | .error _ => False) ∧
    (match Bitfield.FirstClear ⟨[160], 3⟩ 1 with
      | .ok (r, true) => 1 ≤ r ∧ r < Bitfield.Len ⟨[160], 3⟩ ∧
          Bitfield.Test ⟨[160], 3⟩ r = .ok false ∧
          ∀ j, j < r → 1 ≤ j → Bitfield.Test ⟨[160], 3⟩ j = .ok true
      | .ok (r, false) => r = 0 ∧ ∀ j, j < Bitfield.Len ⟨[160], 3⟩ → 1 ≤ j →
          Bitfield.Test ⟨[160], 3⟩ j = .ok true
      | .error _ => False) ∧
    (Bitfield.Len ⟨[160], 3⟩ ≤ 1 →
      Bitfield.FirstSet ⟨[160], 3⟩ 1 = .ok (0, false) ∧
        Bitfield.FirstClear ⟨[160], 3⟩ 1 = .ok (0, false))) :=
  ⟨by unfold WF; decide, C5_scan_correctness ⟨[160], 3⟩ (by unfold WF; decide) 1⟩

/-! ### Claim C8 -/

/-- Claim C8: the concrete scenario at `L = 20`: after setting bits 0, 7, 8
and 19, the buffer is `[0x81, 0x80, 0x10]`, `Hex` is `"818010"`, `Count` is 4,
`All` is `false`, `FirstSet 1` is `(7, true)` and `FirstClear 0` is
`(1, true)`. -/
theorem C8_concrete_scenario :
    applyOps (New 20) [Op.set 0, Op.set 7, Op.set 8, Op.set 19] =
      .ok ⟨[129, 128, 16], 20⟩ ∧
    Bitfield.Hex ⟨[129, 128, 16], 20⟩ = "818010" ∧
    Bitfield.Count ⟨[129, 128, 16], 20⟩ = 4 ∧
    Bitfield.All ⟨[129, 128, 16], 20⟩ = false ∧
    Bitfield.FirstSet ⟨[129, 128, 16], 20⟩ 1 = .ok (7, true) ∧
    Bitfield.FirstClear ⟨[129, 128, 16], 20⟩ 0 = .ok (1, true) := by
  decide

/-! ### Claim C1 -/

/-- Claim C1 (refuted; code bug): for `b = [0xff, 0xff]` and `L = 4` the
buffer is large enough (`len b = 2 ≥ ceil(4/8) = 1` and `4 mod 8 ≠ 0`), yet
`NewBytes` masks the caller's final byte `b[1]` instead of the container's
last byte: the returned container's single byte stays `0xff`, whose low-order
`8 - 4 = 4` padding bits are not 0. -/
theorem C1_padding_bug_failing_input :
    (calcSize 4).1 ≤ ([255, 255] : List Nat).length ∧ 4 % 8 ≠ 0 ∧
    NewBytes [255, 255] 4 = .ok ([255, 240], ⟨[255], 4⟩) ∧
    255 % 2 ^ (8 - 4 % 8) ≠ 0 := by
  decide

/-! ### Claim C2 -/

/-- Claim C2 (refuted; code bug): with `L = 2^32 - 1` the allocation in `New`
wraps around to 0 bytes, so setting bit 0 — a valid index of a nonempty
subset `S = {0}` of `[0, L)` — aborts with a runtime panic instead of
succeeding, and the round-trip property cannot hold. -/
theorem C2_roundtrip_failing_input :
    (New 4294967295).Len = 4294967295 ∧
    applyOps (New 4294967295) [Op.set 0] = .error .runtimePanic := by
  exact ⟨rfl, rfl⟩

/-! ### Claim C4 -/

/-- Claim C4 (refuted; code bug): `New (2^32 - 1)` allocates
`((L + 7) mod 2^32) / 8 = 0` bytes, while `ceil(L/8)` — as computed by the
code's own `calcSize` — is `536870912`, so invariant I1 fails after
construction. -/
theorem C4_allocation_overflow :
    (New 4294967295).Len = 4294967295 ∧
    (New 4294967295).b.length = 0 ∧
    (calcSize 4294967295).1 = 536870912 := by
  exact ⟨rfl, rfl, rfl⟩

/-! ### Unfolding lemmas for NewBytes -/

lemma NewBytes_error {b : List Nat} {L : Nat}
    (h : b.length % 2 ^ 32 < (calcSize L).1) :
    NewBytes b L = .error .invalidLength := by
  simp only [NewBytes]
  rw [if_pos h]

lemma NewBytes_ok_of_mask {b : List Nat} {L : Nat}
    (h : ¬ b.length % 2 ^ 32 < (calcSize L).1) (hm : (calcSize L).2 ≠ 0) :
    NewBytes b L =
      .ok (b.set (b.length - 1)
            ((b.getD (b.length - 1) 0) &&& (255 ^^^ (255 >>> (calcSize L).2))),
          ⟨(b.set (b.length - 1)
            ((b.getD (b.length - 1) 0) &&& (255 ^^^ (255 >>> (calcSize L).2)))).take
              (calcSize L).1, L⟩) := by
  simp only [NewBytes]
  rw [if_neg h, if_pos hm]

/-! ### Claim C7 -/

/-- Claim C7 (refuted; code bug): a buffer of `2^32` zero bytes is large
enough for `L = 8` (which needs 1 byte), yet `NewBytes` panics with the
`InvalidLength` condition because it truncates the slice length to `uint32`
(`2^32 mod 2^32 = 0 < 1`). -/
theorem C7_import_length_truncation :
    (calcSize 8).1 ≤ (List.replicate 4294967296 (0 : Nat)).length ∧
    NewBytes (List.replicate 4294967296 (0 : Nat)) 8 = .error .invalidLength := by
  constructor
  · rw [List.length_replicate]
    norm_num [calcSize, divMod32]
  · apply NewBytes_error
    rw [List.length_replicate]
    norm_num [calcSize, divMod32]

/-! ### Claim C9 -/

/-- Claim C9 (counterexample to the unrestricted statement): a buffer of
`2^32` bytes of `0xff` with `L = 12` satisfies `len b > ceil(L/8) = 2` and
`L mod 8 = 4 ≠ 0`, yet `NewBytes` panics (uint32 truncation of the slice
length) and therefore clears nothing. -/
theorem C9_counterexample :
    (calcSize 12).1 < (List.replicate 4294967296 (255 : Nat)).length ∧ 12 % 8 ≠ 0 ∧
    NewBytes (List.replicate 4294967296 (255 : Nat)) 12 = .error .invalidLength := by
  refine ⟨by rw [List.length_replicate]; norm_num [calcSize, divMod32], by decide, ?_⟩
  apply NewBytes_error
  rw [List.length_replicate]
  norm_num [calcSize, divMod32]

lemma take_set_of_le {b : List Nat} {n m : Nat} (w : Nat) (h : n ≤ m) :
    (b.set m w).take n = b.take n := by
  apply List.ext_getElem?
  intro k
  by_cases hk : k < n
  · rw [List.getElem?_take_of_lt hk, List.getElem?_take_of_lt hk,
      List.getElem?_set_ne (by omega)]
  · rw [List.getElem?_take_eq_none (by omega), List.getElem?_take_eq_none (by omega)]

lemma shiftRight_255 : ∀ m, m < 8 → (255 : Nat) >>> m = 2 ^ (8 - m) - 1 := by decide

/-- Claim C9 (amended: buffers shorter than `2^32` bytes): for every byte
buffer `b` with `ceil(L/8) < len b < 2^32` and `L mod 8 ≠ 0`, `NewBytes b L`
succeeds, replaces only the final byte of the caller's slice by its old value
masked with `0xff & ^(0xff >> (L mod 8))` — which clears the low-order
`8 - L mod 8` bits and preserves the rest — and modifies no byte within
`[0, ceil(L/8))`; the returned container is the first `ceil(L/8)` bytes of
the mutated slice with length `L`. -/
theorem C9_newBytes_frame (b : List Nat) (L : Nat) (hby : ∀ v ∈ b, v < 256)
    (hsize : b.length < 2 ^ 32) (hgt : (calcSize L).1 < b.length) (hmod : L % 8 ≠ 0) :
    NewBytes b L =
      .ok (b.set (b.length - 1)
            ((b.getD (b.length - 1) 0) &&& (255 ^^^ (255 >>> (L % 8)))),
          ⟨(b.set (b.length - 1)
            ((b.getD (b.length - 1) 0) &&& (255 ^^^ (255 >>> (L % 8))))).take
              (calcSize L).1, L⟩) ∧
    (b.set (b.length - 1)
        ((b.getD (b.length - 1) 0) &&& (255 ^^^ (255 >>> (L % 8))))).take (calcSize L).1 =
      b.take (calcSize L).1 ∧
    (∀ k, k < 8 - L % 8 →
      ((b.getD (b.length - 1) 0) &&& (255 ^^^ (255 >>> (L % 8)))).testBit k = false) ∧
    (∀ k, 8 - L % 8 ≤ k →
      ((b.getD (b.length - 1) 0) &&& (255 ^^^ (255 >>> (L % 8)))).testBit k =
        (b.getD (b.length - 1) 0).testBit k) := by
  have hm8 : L % 8 < 8 := Nat.mod_lt _ (by norm_num)
  have hcs2 : (calcSize L).2 = L % 8 := by
    simp [calcSize, divMod32, hmod]
  have hmaskbit : ∀ k, (255 ^^^ (255 >>> (L % 8))).testBit k =
      (decide (k < 8) ^^ decide (k < 8 - L % 8)) := by
    intro k
    rw [shiftRight_255 (L % 8) hm8, show (255 : Nat) = 2 ^ 8 - 1 from rfl,
      Nat.testBit_xor, Nat.testBit_two_pow_sub_one, Nat.testBit_two_pow_sub_one]
  refine ⟨?_, take_set_of_le _ (by omega), ?_, ?_⟩
  · have h1 : ¬ b.length % 2 ^ 32 < (calcSize L).1 := by
      rw [Nat.mod_eq_of_lt hsize]
      omega
    have h2 := NewBytes_ok_of_mask h1 (by rw [hcs2]; exact hmod)
    rw [hcs2] at h2
    exact h2
  · intro k hk
    have hmb : (255 ^^^ (255 >>> (L % 8))).testBit k = false := by
      rw [hmaskbit, decide_eq_true (show k < 8 by omega), decide_eq_true hk]
      rfl
    rw [Nat.testBit_land, hmb, Bool.and_false]
  · intro k hk
    by_cases hk8 : k < 8
    · have hmb : (255 ^^^ (255 >>> (L % 8))).testBit k = true := by
        rw [hmaskbit, decide_eq_true hk8, decide_eq_false (by omega)]
        rfl
      rw [Nat.testBit_land, hmb, Bool.and_true]
    · have hlast : b.length - 1 < b.length := by omega
      have hv : b.getD (b.length - 1) 0 < 256 := by
        rw [getD_eq_getElem hlast]
        exact hby _ (List.getElem_mem hlast)
      have h256 : (256 : Nat) ≤ 2 ^ k :=
        le_trans (by norm_num : (256 : Nat) ≤ 2 ^ 8)
          (Nat.pow_le_pow_right (by norm_num) (by omega))
      have hvk : (b.getD (b.length - 1) 0).testBit k = false :=
        Nat.testBit_lt_two_pow (lt_of_lt_of_le hv h256)
      have hmb : (255 ^^^ (255 >>> (L % 8))).testBit k = false := by
        rw [hmaskbit, decide_eq_false hk8, decide_eq_false (by omega)]
        rfl
      rw [Nat.testBit_land, hvk, hmb]
      rfl

/-- Witness for C9 at `b = [0xff, 0xff, 0xff]`, `L = 12`. -/
theorem C9_newBytes_frame_witness :
    (∀ v ∈ ([255, 255, 255] : List Nat), v < 256) ∧
    ([255, 255, 255] : List Nat).length < 2 ^ 32 ∧
    (calcSize 12).1 < ([255, 255, 255] : List Nat).length ∧
    12 % 8 ≠ 0 ∧
    (NewBytes [255, 255, 255] 12 =
      .ok (([255, 255, 255] : List Nat).set (([255, 255, 255] : List Nat).length - 1)
            ((([255, 255, 255] : List Nat).getD (([255, 255, 255] : List Nat).length - 1) 0) &&&
              (255 ^^^ (255 >>> (12 % 8)))),
          ⟨(([255, 255, 255] : List Nat).set (([255, 255, 255] : List Nat).length - 1)
            ((([255, 255, 255] : List Nat).getD (([255, 255, 255] : List Nat).length - 1) 0) &&&
              (255 ^^^ (255 >>> (12 % 8))))).take (calcSize 12).1, 12⟩) ∧
    (([255, 255, 255] : List Nat).set (([255, 255, 255] : List Nat).length - 1)
        ((([255, 255, 255] : List Nat).getD (([255, 255, 255] : List Nat).length - 1) 0) &&&
          (255 ^^^ (255 >>> (12 % 8))))).take (calcSize 12).1 =
      ([255, 255, 255] : List Nat).take (calcSize 12).1 ∧
    (∀ k, k < 8 - 12 % 8 →
      ((([255, 255, 255] : List Nat).getD (([255, 255, 255] : List Nat).length - 1) 0) &&&
        (255 ^^^ (255 >>> (12 % 8)))).testBit k = false) ∧
    (∀ k, 8 - 12 % 8 ≤ k →
      ((([255, 255, 255] : List Nat).getD (([255, 255, 255] : List Nat).length - 1) 0) &&&
        (255 ^^^ (255 >>> (12 % 8)))).testBit k =
        (([255, 255, 255] : List Nat).getD (([255, 255, 255] : List Nat).length - 1) 0).testBit k)) :=
  ⟨by decide, by norm_num, by decide, by norm_num,
    C9_newBytes_frame [255, 255, 255] 12 (by decide) (by norm_num)
      (by decide) (by norm_num)⟩

/-! ### Positive statements away from the overflow bugs

The two lemmas below are not claims of the specification audit; they document
that the intent behind claims C4 and C2 does hold for every length for which
the `uint32` addition `length + 7` in `New` does not wrap. -/

lemma New_length_of_no_overflow (L : Nat) (hL : L + 7 < 2 ^ 32) :
    (New L).b.length = (calcSize L).1 := by
  simp only [New, List.length_replicate]
  rw [Nat.mod_eq_of_lt hL]
  by_cases h : L % 8 = 0 <;> simp [calcSize, divMod32, h] <;> omega

lemma applyOps_sets (S : List Nat) :
    ∀ {bf : Bitfield}, (∀ i ∈ S, i < bf.length) → bf.length ≤ 8 * bf.b.length →
    ∃ bf2, applyOps bf (S.map Op.set) = .ok bf2 ∧ bf2.length = bf.length ∧
      bf2.b.length = bf.b.length ∧
      ∀ j, bitAt bf2.b j = (bitAt bf.b j || S.contains j) := by
  induction S with
  | nil =>
    intro bf _ _
    exact ⟨bf, rfl, rfl, rfl, by simp⟩
  | cons i rest ih =>
    intro bf h hwf
    have hi : i < bf.length := h i (by simp)
    have hdiv : i / 8 < bf.b.length := by omega
    have hstep := Set_ok hi hdiv
    obtain ⟨bf2, happ, hlen, hblen, hbits⟩ :=
      @ih ⟨bf.b.set (i / 8) ((bf.b.getD (i / 8) 0) ||| (1 <<< (7 - i % 8))), bf.length⟩
        (fun x hx => h x (by simp [hx])) (by simpa using hwf)
    refine ⟨bf2, ?_, by rw [hlen], by rw [hblen]; simp, fun j => ?_⟩
    · show (match bf.Set i with
        | .ok bfm => applyOps bfm (rest.map Op.set)
        | .error e => .error e) = .ok bf2
      rw [hstep]
      exact happ
    · rw [hbits j]
      by_cases hj : j = i
      · subst hj
        rw [bitAt_set_self _ _ _ hdiv, testBit_or_word_self]
        simp
      · rw [bitAt_set_of_ne _ _ _ _ hj (fun k _ hk => testBit_or_word _ _ _ hk)]
        simp [List.contains_cons, hj]

lemma roundTrip_away_from_overflow (L : Nat) (hL : L + 7 < 2 ^ 32) (S : List Nat)
    (hS : ∀ i ∈ S, i < L) :
    ∃ bf, applyOps (New L) (S.map Op.set) = .ok bf ∧
      ∀ i, i < L → bf.Test i = .ok (S.contains i) := by
  have hblen : (New L).b.length = (L + 7) / 8 := by
    simp only [New, List.length_replicate]
    rw [Nat.mod_eq_of_lt hL]
  have hwf : (New L).length ≤ 8 * (New L).b.length := by
    rw [hblen]
    show L ≤ 8 * ((L + 7) / 8)
    omega
  obtain ⟨bf, happ, hlen, hblen2, hbits⟩ := @applyOps_sets S (New L) hS hwf
  refine ⟨bf, happ, fun i hi => ?_⟩
  have hiL : i < bf.length := by
    rw [hlen]
    exact hi
  have hidiv : i / 8 < bf.b.length := by
    rw [hblen2, hblen]
    omega
  rw [Test_ok hiL hidiv, hbits i]
  have hz : bitAt (New L).b i = false := by
    show bitAt (List.replicate ((L + 7) % 2 ^ 32 / 8) 0) i = false
    unfold bitAt
    rw [getD_replicate_zero]
    exact Nat.zero_testBit _
  rw [hz, Bool.false_or]

example : (New 20).b = [0, 0, 0] := by decide
example : New 0 = ⟨[], 0⟩ := by decide
example : (New 4294967295).b = [] := by rfl
example : applyOps (New 20) [.set 0, .set 7, .set 8, .set 19] = .ok ⟨[129, 128, 16], 20⟩ := by
  decide
example : Bitfield.Hex ⟨[129, 128, 16], 20⟩ = "818010" := by decide
example : Bitfield.Count ⟨[129, 128, 16], 20⟩ = 4 := by decide
example : Bitfield.FirstSet ⟨[129, 128, 16], 20⟩ 1 = .ok (7, true) := by decide
example : Bitfield.FirstClear ⟨[129, 128, 16], 20⟩ 0 = .ok (1, true) := by decide
example : NewBytes [255, 255] 4 = .ok ([255, 240], ⟨[255], 4⟩) := by decide
example : NewBytes [255] 4 = .ok ([240], ⟨[240], 4⟩) := by decide
example : NewBytes [] 4 = .error .invalidLength := by decide
example : (New 4294967295).Set 0 = .error .runtimePanic := by rfl
